import Mathlib

/-!
Verification of the handlebars-inflector helper.

The repository's own code (`src/lib.rs`) is the dispatch chain of the
`HandlebarsInflector` helper: it extracts the first positional parameter,
handles missing / non-string input according to strict mode, and then runs
the input through a fixed sequence of inflection transformations, one `if`
per recognized hash key.  The individual transformations live in the
external `inflector` crate, which is not part of this repository; they are
modelled here from the specification (each such definition carries a
`Modelled from the spec:` doc comment).
-/

namespace Inflector

/-- Word separator characters recognized by the shared word-boundary
detector: space, underscore and hyphen. -/
def isSep (c : Char) : Bool :=
  decide (c.toNat = 32 ∨ c.toNat = 95 ∨ c.toNat = 45)

/-- ASCII uppercase letter test, on the codepoint. -/
def isUpperA (c : Char) : Bool :=
  decide (65 ≤ c.toNat ∧ c.toNat ≤ 90)

/-- ASCII lowercase letter test, on the codepoint. -/
def isLowerA (c : Char) : Bool :=
  decide (97 ≤ c.toNat ∧ c.toNat ≤ 122)

/-- Modelled from the spec: the shared word-boundary detector marks a
boundary at every lower-to-upper case transition by inserting an explicit
underscore separator between the two characters. -/
def markBoundaries : List Char → List Char
  | a :: b :: rest =>
    if isLowerA a ∧ isUpperA b then a :: '_' :: markBoundaries (b :: rest)
    else a :: markBoundaries (b :: rest)
  | l => l

/-- Split a character list at separator characters, keeping empty chunks
(the chunk list is therefore always nonempty). -/
def splitAll : List Char → List (List Char)
  | [] => [[]]
  | c :: rest =>
    let r := splitAll rest
    if isSep c then [] :: r
    else (c :: r.headD []) :: r.tail

/-- Modelled from the spec: the shared word-boundary detector splits on
underscores, hyphens, spaces and lower-to-upper case transitions; empty
fragments are discarded. -/
def splitWords (l : List Char) : List (List Char) :=
  (splitAll (markBoundaries l)).filter (fun w => !w.isEmpty)

/-- Lowercase every character of a word (ASCII). -/
def lowerWord (w : List Char) : List Char := w.map Char.toLower

/-- Uppercase every character of a word (ASCII). -/
def upperWord (w : List Char) : List Char := w.map Char.toUpper

/-- Modelled from the spec: capitalizing a word uppercases its first
letter (the spec's examples, e.g. `std` to `Std`, capitalize only the
first letter). -/
def capWord : List Char → List Char
  | [] => []
  | c :: cs => Char.toUpper c :: cs

/-- Lowercase the first letter of a word, leaving the rest alone. -/
def lowFirst : List Char → List Char
  | [] => []
  | c :: cs => Char.toLower c :: cs

/-- Join word fragments with a separator fragment between them. -/
def joinWith (sep : List Char) : List (List Char) → List Char
  | [] => []
  | [w] => w
  | w :: ws => w ++ sep ++ joinWith sep ws

/-- Modelled from the spec: camel_case is the lower-camel merge of the
words, first word starting lowercase, later words capitalized. -/
def camelData (l : List Char) : List Char :=
  match splitWords l with
  | [] => []
  | w :: ws => lowFirst w ++ (ws.map capWord).flatten

/-- Modelled from the spec: pascal_case is the upper-camel merge of the
words, every word capitalized. -/
def pascalData (l : List Char) : List Char :=
  ((splitWords l).map capWord).flatten

/-- Modelled from the spec: snake_case lowercases the words and joins them
with underscores. -/
def snakeData (l : List Char) : List Char :=
  joinWith ['_'] ((splitWords l).map lowerWord)

/-- Modelled from the spec: screaming_snake_case uppercases the words and
joins them with underscores. -/
def screamingData (l : List Char) : List Char :=
  joinWith ['_'] ((splitWords l).map upperWord)

/-- Modelled from the spec: kebab_case lowercases the words and joins them
with hyphens. -/
def kebabData (l : List Char) : List Char :=
  joinWith ['-'] ((splitWords l).map lowerWord)

/-- Modelled from the spec: train_case capitalizes the words and joins
them with hyphens. -/
def trainData (l : List Char) : List Char :=
  joinWith ['-'] ((splitWords l).map capWord)

/-- Modelled from the spec: sentence_case capitalizes the first word only,
lowercases the rest, and joins with spaces. -/
def sentenceData (l : List Char) : List Char :=
  match splitWords l with
  | [] => []
  | w :: ws => joinWith [' '] (capWord (lowerWord w) :: ws.map lowerWord)

/-- Modelled from the spec: title_case capitalizes every word and joins
with spaces. -/
def titleData (l : List Char) : List Char :=
  joinWith [' '] ((splitWords l).map capWord)

/-- Modelled from the spec: `to_camel_case` of the inflector crate. -/
def to_camel_case (s : String) : String := ⟨camelData s.data⟩

/-- Modelled from the spec: `to_pascal_case` of the inflector crate. -/
def to_pascal_case (s : String) : String := ⟨pascalData s.data⟩

/-- Modelled from the spec: `to_snake_case` of the inflector crate. -/
def to_snake_case (s : String) : String := ⟨snakeData s.data⟩

/-- Modelled from the spec: `to_screaming_snake_case` of the inflector
crate. -/
def to_screaming_snake_case (s : String) : String := ⟨screamingData s.data⟩

/-- Modelled from the spec: `to_kebab_case` of the inflector crate. -/
def to_kebab_case (s : String) : String := ⟨kebabData s.data⟩

/-- Modelled from the spec: `to_train_case` of the inflector crate. -/
def to_train_case (s : String) : String := ⟨trainData s.data⟩

/-- Modelled from the spec: `to_sentence_case` of the inflector crate. -/
def to_sentence_case (s : String) : String := ⟨sentenceData s.data⟩

/-- Modelled from the spec: `to_title_case` of the inflector crate. -/
def to_title_case (s : String) : String := ⟨titleData s.data⟩

/-- Numeric value of a run of decimal digit characters. -/
def digitsVal (ds : List Char) : Nat :=
  ds.foldl (fun n c => 10 * n + (c.toNat - 48)) 0

/-- Modelled from the spec: the standard English ordinal suffix for a
number — `st`/`nd`/`rd` for 1/2/3 modulo 10, except the 11–13 band modulo
100, which takes `th`; everything else takes `th`. -/
def ordinalSuffix (n : Nat) : List Char :=
  if n % 100 = 11 ∨ n % 100 = 12 ∨ n % 100 = 13 then ['t', 'h']
  else if n % 10 = 1 then ['s', 't']
  else if n % 10 = 2 then ['n', 'd']
  else if n % 10 = 3 then ['r', 'd']
  else ['t', 'h']

/-- Modelled from the spec: `ordinalize` appends the English ordinal
suffix determined by the trailing run of decimal digits; a string with no
trailing digits is returned unchanged (best-effort identity). -/
def ordinalize (s : String) : String :=
  if (s.data.reverse.takeWhile Char.isDigit).isEmpty then s
  else ⟨s.data ++ ordinalSuffix (digitsVal (s.data.reverse.takeWhile Char.isDigit).reverse)⟩

/-- Is this two-character fragment one of the four English ordinal
suffixes? -/
def isOrdinalPair (a b : Char) : Bool :=
  (a = 's' && b = 't') || (a = 'n' && b = 'd') ||
  (a = 'r' && b = 'd') || (a = 't' && b = 'h')

/-- Modelled from the spec: `deordinalize` strips a two-letter ordinal
suffix if and only if it immediately follows a decimal digit; otherwise
the string is unchanged. -/
def deordinalize (s : String) : String :=
  match s.data.reverse with
  | b :: a :: d :: rest =>
    if isOrdinalPair a b ∧ Char.isDigit d then ⟨(d :: rest).reverse⟩ else s
  | _ => s

/-- Vowel test used by the regular pluralization suffix rules. -/
def isVowel (c : Char) : Bool :=
  c = 'a' || c = 'e' || c = 'i' || c = 'o' || c = 'u'

/-- Modelled from the spec: uncountable English words, for which
pluralization and singularization are a no-op. -/
def uncountable : List (List Char) :=
  [['e','q','u','i','p','m','e','n','t'],
   ['i','n','f','o','r','m','a','t','i','o','n'],
   ['m','o','n','e','y'],
   ['s','e','r','i','e','s'],
   ['s','p','e','c','i','e','s'],
   ['f','i','s','h'],
   ['s','h','e','e','p']]

/-- Modelled from the spec: irregular singular/plural word pairs, e.g.
person/people. -/
def irregulars : List (List Char × List Char) :=
  [(['p','e','r','s','o','n'], ['p','e','o','p','l','e']),
   (['m','a','n'], ['m','e','n']),
   (['w','o','m','a','n'], ['w','o','m','e','n']),
   (['c','h','i','l','d'], ['c','h','i','l','d','r','e','n'])]

/-- Modelled from the spec: the regular English pluralization suffix
rules — sibilant endings (`s`, `x`, `z`, `ch`, `sh`) take `es`, a
consonant followed by `y` turns into `ies`, everything else appends
`s`. -/
def pluralRegular (l : List Char) : List Char :=
  match l.reverse with
  | 'y' :: c :: _ => if isVowel c then l ++ ['s'] else l.dropLast ++ ['i', 'e', 's']
  | 's' :: _ => l ++ ['e', 's']
  | 'x' :: _ => l ++ ['e', 's']
  | 'z' :: _ => l ++ ['e', 's']
  | 'h' :: 'c' :: _ => l ++ ['e', 's']
  | 'h' :: 's' :: _ => l ++ ['e', 's']
  | _ => l ++ ['s']

/-- Modelled from the spec: the regular English singularization suffix
rules, the inverse of `pluralRegular` — `ies` turns back into `y`,
sibilant `es` endings drop the `es`, a trailing `s` (but not `ss`) is
dropped, anything else is unchanged. -/
def singularRegular (l : List Char) : List Char :=
  match l.reverse with
  | 's' :: 'e' :: 'i' :: rest => rest.reverse ++ ['y']
  | 's' :: 'e' :: 'x' :: _ => l.dropLast.dropLast
  | 's' :: 'e' :: 'z' :: _ => l.dropLast.dropLast
  | 's' :: 'e' :: 'h' :: 'c' :: _ => l.dropLast.dropLast
  | 's' :: 'e' :: 'h' :: 's' :: _ => l.dropLast.dropLast
  | 's' :: 's' :: _ => l
  | 's' :: _ => l.dropLast
  | _ => l

/-- Modelled from the spec: English pluralization — uncountable words and
the empty string are a no-op, irregular words map through the exception
list, everything else goes through the regular suffix rules. -/
def to_plural (s : String) : String :=
  if s.data.isEmpty then s
  else if s.data ∈ uncountable then s
  else
    match irregulars.lookup s.data with
    | some p => ⟨p⟩
    | none => ⟨pluralRegular s.data⟩

/-- Modelled from the spec: English singularization — uncountable words
and the empty string are a no-op, irregular plurals map back through the
exception list, everything else goes through the regular suffix rules. -/
def to_singular (s : String) : String :=
  if s.data.isEmpty then s
  else if s.data ∈ uncountable then s
  else
    match (irregulars.map (fun p => (p.2, p.1))).lookup s.data with
    | some q => ⟨q⟩
    | none => ⟨singularRegular s.data⟩

/-- Modelled from the spec: `to_foreign_key` singularizes, snake_cases
and appends `_id`. -/
def to_foreign_key (s : String) : String :=
  ⟨(to_snake_case (to_singular s)).data ++ ['_', 'i', 'd']⟩

/-- Split a character list at the last occurrence of the `::` namespace
separator, scanning occurrences left to right without overlap; `none`
when the separator does not occur. -/
def splitLastSep : List Char → Option (List Char × List Char)
  | [] => none
  | [_] => none
  | a :: b :: rest =>
    if a = ':' ∧ b = ':' then
      match splitLastSep rest with
      | some (pre, post) => some (':' :: ':' :: pre, post)
      | none => some ([], rest)
    else
      match splitLastSep (b :: rest) with
      | some (pre, post) => some (a :: pre, post)
      | none => none

/-- Does the `::` namespace separator occur in the list? -/
def containsSep : List Char → Bool
  | [] => false
  | [_] => false
  | a :: b :: rest => decide (a = ':' ∧ b = ':') || containsSep (b :: rest)

/-- Modelled from the spec: `demodulize` keeps the segment after the last
`::` separator, returned with a capitalized first letter; without a
separator the input is returned unchanged. -/
def demodulize (s : String) : String :=
  match splitLastSep s.data with
  | some (_, post) => ⟨capWord post⟩
  | none => s

/-- Modelled from the spec: `deconstantize` keeps everything before the
last `::` separator, returned with a capitalized first letter; without a
separator the result is the empty string. -/
def deconstantize (s : String) : String :=
  match splitLastSep s.data with
  | some (pre, _) => ⟨capWord pre⟩
  | none => ""

/-- Modelled from the spec: `to_class_case` singularizes and then
PascalCases. -/
def to_class_case (s : String) : String :=
  to_pascal_case (to_singular s)

/-- Modelled from the spec: `to_table_case` pluralizes and then
snake_cases. -/
def to_table_case (s : String) : String :=
  to_snake_case (to_plural s)

/-- Rust `String::to_uppercase`, restricted to ASCII in this model. -/
def to_uppercase (s : String) : String := ⟨s.data.map Char.toUpper⟩

/-- Rust `String::to_lowercase`, restricted to ASCII in this model. -/
def to_lowercase (s : String) : String := ⟨s.data.map Char.toLower⟩

end Inflector

/-- The 19 recognized transformation flags, in the spec's canonical
naming. -/
inductive InflectFlag
  | camel_case
  | pascal_case
  | snake_case
  | screaming_snake_case
  | kebab_case
  | train_case
  | sentence_case
  | title_case
  | ordinalize
  | deordinalize
  | to_foreign_key
  | demodulize
  | deconstantize
  | class_case
  | table_case
  | pluralize
  | singularize
  | upper_case
  | lower_case
deriving DecidableEq

/-- The hash key under which the helper looks each flag up
(`h.hash_get(...)` in `src/lib.rs`). -/
def flagKey : InflectFlag → String
  | .camel_case => "to_camel_case"
  | .pascal_case => "to_pascal_case"
  | .snake_case => "to_snake_case"
  | .screaming_snake_case => "to_screaming_snake_case"
  | .kebab_case => "to_kebab_case"
  | .train_case => "to_train_case"
  | .sentence_case => "to_sentence_case"
  | .title_case => "to_title_case"
  | .ordinalize => "ordinalize"
  | .deordinalize => "deordinalize"
  | .to_foreign_key => "to_foreign_key"
  | .demodulize => "demodulize"
  | .deconstantize => "deconstantize"
  | .class_case => "to_class_case"
  | .table_case => "to_table_case"
  | .pluralize => "to_plural"
  | .singularize => "to_singular"
  | .upper_case => "to_upper_case"
  | .lower_case => "to_lower_case"

/-- The transformation each flag applies. -/
def applyFlag : InflectFlag → String → String
  | .camel_case => Inflector.to_camel_case
  | .pascal_case => Inflector.to_pascal_case
  | .snake_case => Inflector.to_snake_case
  | .screaming_snake_case => Inflector.to_screaming_snake_case
  | .kebab_case => Inflector.to_kebab_case
  | .train_case => Inflector.to_train_case
  | .sentence_case => Inflector.to_sentence_case
  | .title_case => Inflector.to_title_case
  | .ordinalize => Inflector.ordinalize
  | .deordinalize => Inflector.deordinalize
  | .to_foreign_key => Inflector.to_foreign_key
  | .demodulize => Inflector.demodulize
  | .deconstantize => Inflector.deconstantize
  | .class_case => Inflector.to_class_case
  | .table_case => Inflector.to_table_case
  | .pluralize => Inflector.to_plural
  | .singularize => Inflector.to_singular
  | .upper_case => Inflector.to_uppercase
  | .lower_case => Inflector.to_lowercase

/-- The canonical execution order of the flags, exactly the order of the
`if` chain in `HandlebarsInflector::call`. -/
def canonicalOrder : List InflectFlag :=
  [.camel_case, .pascal_case, .snake_case, .screaming_snake_case,
   .kebab_case, .train_case, .sentence_case, .title_case,
   .ordinalize, .deordinalize, .to_foreign_key, .demodulize,
   .deconstantize, .class_case, .table_case, .pluralize,
   .singularize, .upper_case, .lower_case]

/-- The helper's hash arguments: name/value bindings in the order they
were written in the template, duplicates possible.  The attached value is
the boolean written after `=`. -/
abbrev FlagHash := List (String × Bool)

/-- `Helper::hash_get`: look a key up in the hash. -/
def hashGet (hash : FlagHash) (k : String) : Option Bool :=
  hash.lookup k

namespace HandlebarsInflector

/-- The transformation chain of `HandlebarsInflector::call`
(src/lib.rs lines 137–213): one `if hash_get(name).is_some()` per flag,
in source order, each step consuming the previous output. -/
def call (hash : FlagHash) (input : String) : String :=
  let output := input
  let output := if (hashGet hash "to_camel_case").isSome then Inflector.to_camel_case output else output
  let output := if (hashGet hash "to_pascal_case").isSome then Inflector.to_pascal_case output else output
  let output := if (hashGet hash "to_snake_case").isSome then Inflector.to_snake_case output else output
  let output := if (hashGet hash "to_screaming_snake_case").isSome then Inflector.to_screaming_snake_case output else output
  let output := if (hashGet hash "to_kebab_case").isSome then Inflector.to_kebab_case output else output
  let output := if (hashGet hash "to_train_case").isSome then Inflector.to_train_case output else output
  let output := if (hashGet hash "to_sentence_case").isSome then Inflector.to_sentence_case output else output
  let output := if (hashGet hash "to_title_case").isSome then Inflector.to_title_case output else output
  let output := if (hashGet hash "ordinalize").isSome then Inflector.ordinalize output else output
  let output := if (hashGet hash "deordinalize").isSome then Inflector.deordinalize output else output
  let output := if (hashGet hash "to_foreign_key").isSome then Inflector.to_foreign_key output else output
  let output := if (hashGet hash "demodulize").isSome then Inflector.demodulize output else output
  let output := if (hashGet hash "deconstantize").isSome then Inflector.deconstantize output else output
  let output := if (hashGet hash "to_class_case").isSome then Inflector.to_class_case output else output
  let output := if (hashGet hash "to_table_case").isSome then Inflector.to_table_case output else output
  let output := if (hashGet hash "to_plural").isSome then Inflector.to_plural output else output
  let output := if (hashGet hash "to_singular").isSome then Inflector.to_singular output else output
  let output := if (hashGet hash "to_upper_case").isSome then Inflector.to_uppercase output else output
  let output := if (hashGet hash "to_lower_case").isSome then Inflector.to_lowercase output else output
  output

end HandlebarsInflector

/-- The left-to-right fold over the canonical table that the spec
describes: apply each flag present in the set, in table order. -/
def transformFold (present : InflectFlag → Bool) (input : String) : String :=
  canonicalOrder.foldl (fun acc f => if present f then applyFlag f acc else acc) input

/-- Which recognized flags a hash activates. -/
def presentFlags (hash : FlagHash) (f : InflectFlag) : Bool :=
  (hashGet hash (flagKey f)).isSome

/-- The JSON-ish values a helper parameter can carry. -/
inductive Json
  | str (s : String)
  | num (n : Int)
  | bool (b : Bool)
  | null
deriving DecidableEq

/-- `serde_json::Value::is_string`. -/
def Json.isString : Json → Bool
  | .str _ => true
  | _ => false

/-- `JsonRender::render`: the string rendering of a parameter value. -/
def Json.render : Json → String
  | .str s => s
  | .num n => toString n
  | .bool b => cond b "true" "false"
  | .null => ""

/-- The two handlebars error reasons the helper can signal. -/
inductive RenderErrorReason
  | ParamNotFoundForIndex (helper : String) (idx : Nat)
  | ParamTypeMismatchForName (helper : String) (idx : String) (expected : String)
deriving DecidableEq

namespace HandlebarsInflector

/-- The full body of `HandlebarsInflector::call` (src/lib.rs lines
114–217): parameter extraction and strict-mode error handling around the
transformation chain; the result is the string written to the output
stream. -/
def callAdapter (param0 : Option Json) (strict : Bool) (hash : FlagHash) :
    Except RenderErrorReason String :=
  match param0 with
  | none =>
    if strict then .error (.ParamNotFoundForIndex "inflect" 0)
    else .ok ""
  | some input =>
    if !input.isString then
      if strict then .error (.ParamTypeMismatchForName "inflect" "0" "string")
      else .ok ""
    else
      .ok (call hash input.render)

end HandlebarsInflector

/-- The trailing space-separated token of the string is a nonempty run of
decimal digits (a bare integer), as in the round-trip property's
hypothesis. -/
def trailingBareInt (s : String) : Bool :=
  !(s.data.reverse.takeWhile (fun c => decide (c ≠ ' '))).isEmpty &&
    (s.data.reverse.takeWhile (fun c => decide (c ≠ ' '))).all Char.isDigit

/-- Every nonempty word in scope starts with a character fixed by
`Char.toUpper`. -/
def headFixed (w : List Char) : Prop :=
  ∀ c cs, w = c :: cs → Char.toUpper c = c

/-- The first character of the list, if any, is a separator or fixed by
`Char.toUpper`. -/
def headFixedOrSep : List Char → Prop
  | [] => True
  | c :: _ => Inflector.isSep c = true ∨ Char.toUpper c = c

/-- Every character immediately following a separator is itself a
separator or fixed by `Char.toUpper`. -/
def sepFollowedFixed : List Char → Prop
  | a :: b :: rest =>
    (Inflector.isSep a = true → (Inflector.isSep b = true ∨ Char.toUpper b = b)) ∧
    sepFollowedFixed (b :: rest)
  | _ => True

theorem call_eq_transformFold (hash : FlagHash) (input : String) :
    HandlebarsInflector.call hash input = transformFold (presentFlags hash) input := rfl

theorem hashGet_isSome_iff (k : String) (l : FlagHash) :
    (hashGet l k).isSome = true ↔ k ∈ l.map Prod.fst := by
  induction l with
  | nil => simp [hashGet]
  | cons p t ih =>
    obtain ⟨a, b⟩ := p
    by_cases h : k = a
    · subst h
      simp [hashGet, List.lookup]
    · have hba : (k == a) = false := beq_false_of_ne h
      simp only [hashGet, List.lookup, hba] at ih ⊢
      simp [ih, h]

/-- Claim C1: for every input string and every set of recognized flags,
the helper output equals the left-to-right fold applying each active
transformation in the fixed canonical table order, each step consuming the
previous step's output; and the result depends only on which flag names
are present in the hash, not on request order, attached boolean values, or
duplicates. -/
theorem claim_C1 :
    (∀ (hash : FlagHash) (input : String),
      HandlebarsInflector.call hash input = transformFold (presentFlags hash) input) ∧
    (∀ (h1 h2 : FlagHash),
      (∀ f : InflectFlag, flagKey f ∈ h1.map Prod.fst ↔ flagKey f ∈ h2.map Prod.fst) →
      ∀ input, HandlebarsInflector.call h1 input = HandlebarsInflector.call h2 input) := by
  refine ⟨call_eq_transformFold, ?_⟩
  intro h1 h2 hpres input
  rw [call_eq_transformFold, call_eq_transformFold]
  have hp : presentFlags h1 = presentFlags h2 := by
    funext f
    have h := hpres f
    rw [← hashGet_isSome_iff, ← hashGet_isSome_iff] at h
    rw [presentFlags, presentFlags]
    exact Bool.coe_iff_coe.mp h
  rw [hp]

theorem claim_C1_witness :
    HandlebarsInflector.call [("to_snake_case", true), ("to_upper_case", true)] "ProductImages" =
      transformFold (presentFlags [("to_snake_case", true), ("to_upper_case", true)]) "ProductImages" ∧
    HandlebarsInflector.call [("to_snake_case", true), ("to_upper_case", false)] "ProductImages" =
      HandlebarsInflector.call [("to_upper_case", true), ("to_upper_case", true), ("to_snake_case", true)]
        "ProductImages" :=
  ⟨claim_C1.1 _ _, claim_C1.2 _ _ (by intro f; cases f <;> decide) _⟩

/-- Claim C2: the core transformation is total — for every string input
and every flag set the adapter returns the transformed string and never
signals an error, in strict mode or not. -/
theorem claim_C2 : ∀ (s : String) (strict : Bool) (hash : FlagHash),
    HandlebarsInflector.callAdapter (some (Json.str s)) strict hash =
      Except.ok (HandlebarsInflector.call hash s) := by
  intro s strict hash
  rfl

/-- Claim C4: with the first positional argument absent, strict mode
signals a missing-required-argument error and non-strict mode produces
empty output; with a non-string argument, strict mode signals a
type-mismatch error expecting a string and non-strict mode produces empty
output; with a string argument no adapter error is raised. -/
theorem claim_C4 :
    (∀ hash, HandlebarsInflector.callAdapter none true hash =
      Except.error (RenderErrorReason.ParamNotFoundForIndex "inflect" 0)) ∧
    (∀ hash, HandlebarsInflector.callAdapter none false hash = Except.ok "") ∧
    (∀ (v : Json) hash, v.isString = false →
      HandlebarsInflector.callAdapter (some v) true hash =
        Except.error (RenderErrorReason.ParamTypeMismatchForName "inflect" "0" "string")) ∧
    (∀ (v : Json) hash, v.isString = false →
      HandlebarsInflector.callAdapter (some v) false hash = Except.ok "") ∧
    (∀ (v : Json) hash strict, v.isString = true →
      ∃ out, HandlebarsInflector.callAdapter (some v) strict hash = Except.ok out) := by
  refine ⟨fun hash => rfl, fun hash => rfl, ?_, ?_, ?_⟩
  · intro v hash h
    simp [HandlebarsInflector.callAdapter, h]
  · intro v hash h
    simp [HandlebarsInflector.callAdapter, h]
  · intro v hash strict h
    exact ⟨HandlebarsInflector.call hash v.render, by simp [HandlebarsInflector.callAdapter, h]⟩

theorem claim_C4_witness :
    HandlebarsInflector.callAdapter none true [] =
      Except.error (RenderErrorReason.ParamNotFoundForIndex "inflect" 0) ∧
    HandlebarsInflector.callAdapter none false [] = Except.ok "" ∧
    HandlebarsInflector.callAdapter (some (Json.num 7)) true [] =
      Except.error (RenderErrorReason.ParamTypeMismatchForName "inflect" "0" "string") ∧
    HandlebarsInflector.callAdapter (some (Json.num 7)) false [] = Except.ok "" ∧
    (∃ out, HandlebarsInflector.callAdapter (some (Json.str "tests")) true [] = Except.ok out) :=
  ⟨claim_C4.1 [], claim_C4.2.1 [], claim_C4.2.2.1 _ [] rfl, claim_C4.2.2.2.1 _ [] rfl,
   claim_C4.2.2.2.2 _ [] true rfl⟩

/-- Claim C10: when none of the 19 recognized flag names is present in
the hash, the helper writes the input string unchanged. -/
theorem claim_C10 : ∀ (hash : FlagHash) (input : String),
    (∀ f : InflectFlag, presentFlags hash f = false) →
    HandlebarsInflector.call hash input = input := by
  intro hash input h
  rw [call_eq_transformFold]
  simp [transformFold, canonicalOrder, h]

theorem claim_C10_witness :
    HandlebarsInflector.call [("unknown_option", true)] "Sample Text" = "Sample Text" :=
  claim_C10 _ _ (by intro f; cases f <;> decide)

/-- Claim C3: each flag applied alone matches its documented example. -/
theorem claim_C3 :
    Inflector.to_camel_case "this is a test" = "thisIsATest" ∧
    Inflector.to_table_case "ProductImage" = "product_images" ∧
    Inflector.to_foreign_key "Product image" = "product_image_id" ∧
    Inflector.demodulize "Foo::Bar" = "Bar" ∧
    Inflector.deconstantize "Foo::Bar" = "Foo" := by
  exact ⟨by decide, by decide, by decide, by decide, by decide⟩

/-- Claim C8: the canonical table's namespace-splitting examples — the
kept segment is returned with a capitalized first letter. -/
theorem claim_C8 :
    Inflector.demodulize "std::io" = "Io" ∧ Inflector.deconstantize "std::io" = "Std" := by
  exact ⟨by decide, by decide⟩

theorem splitLastSep_eq_none (l : List Char) :
    Inflector.containsSep l = false → Inflector.splitLastSep l = none := by
  induction l with
  | nil => intro _; rfl
  | cons a rest ih =>
    cases rest with
    | nil => intro _; rfl
    | cons b rest2 =>
      intro h
      rw [Inflector.containsSep] at h
      simp only [Bool.or_eq_false_iff, decide_eq_false_iff_not] at h
      rw [Inflector.splitLastSep, if_neg h.1, ih h.2]

/-- Claim C9: for every input containing no `::` namespace separator,
`demodulize` returns the input unchanged and `deconstantize` returns the
empty string. -/
theorem claim_C9 : ∀ s : String, Inflector.containsSep s.data = false →
    Inflector.demodulize s = s ∧ Inflector.deconstantize s = "" := by
  intro s h
  have h2 := splitLastSep_eq_none s.data h
  constructor
  · rw [Inflector.demodulize, h2]
  · rw [Inflector.deconstantize, h2]

theorem claim_C9_witness :
    Inflector.containsSep (String.data "test") = false ∧
    Inflector.demodulize "test" = "test" ∧ Inflector.deconstantize "test" = "" := by
  refine ⟨by decide, ?_, ?_⟩
  · exact (claim_C9 "test" (by decide)).1
  · exact (claim_C9 "test" (by decide)).2

theorem ordinalSuffix_shape (n : Nat) :
    ∃ x y, Inflector.ordinalSuffix n = [x, y] ∧ Inflector.isOrdinalPair x y = true := by
  rw [Inflector.ordinalSuffix]
  repeat' split
  · exact ⟨'t', 'h', rfl, by decide⟩
  · exact ⟨'s', 't', rfl, by decide⟩
  · exact ⟨'n', 'd', rfl, by decide⟩
  · exact ⟨'r', 'd', rfl, by decide⟩
  · exact ⟨'t', 'h', rfl, by decide⟩

/-- Claim C6: for every string whose trailing token is a bare decimal
integer, stripping the ordinal suffix after appending it restores the
original string. -/
theorem claim_C6 : ∀ s : String, trailingBareInt s = true →
    Inflector.deordinalize (Inflector.ordinalize s) = s := by
  intro s h
  rw [trailingBareInt, Bool.and_eq_true, Bool.not_eq_true'] at h
  obtain ⟨h1, h2⟩ := h
  obtain ⟨d, rest, hr, hd⟩ :
      ∃ d rest, s.data.reverse = d :: rest ∧ Char.isDigit d = true := by
    cases hr : s.data.reverse with
    | nil => rw [hr] at h1; simp at h1
    | cons d rest =>
      rw [hr] at h1 h2
      by_cases hsp : d = ' '
      · rw [List.takeWhile_cons] at h1
        simp [hsp] at h1
      · have h3 : List.takeWhile (fun c => decide (c ≠ ' ')) (d :: rest)
            = d :: List.takeWhile (fun c => decide (c ≠ ' ')) rest := by
          simp [List.takeWhile_cons, hsp]
        rw [h3, List.all_cons, Bool.and_eq_true] at h2
        exact ⟨d, rest, rfl, h2.1⟩
  have hcond : (s.data.reverse.takeWhile Char.isDigit).isEmpty = false := by
    rw [hr, List.takeWhile_cons, hd]
    simp
  rw [Inflector.ordinalize, if_neg (by simp [hcond])]
  obtain ⟨x, y, hxy, hpair⟩ :=
    ordinalSuffix_shape (Inflector.digitsVal (s.data.reverse.takeWhile Char.isDigit).reverse)
  rw [hxy, Inflector.deordinalize]
  have hsc : (String.mk (s.data ++ [x, y])).data.reverse = y :: x :: d :: rest := by
    simp [List.reverse_append, hr]
  rw [hsc]
  change (if Inflector.isOrdinalPair x y = true ∧ Char.isDigit d = true then
    String.mk ((d :: rest).reverse) else String.mk (s.data ++ [x, y])) = s
  rw [if_pos ⟨hpair, hd⟩]
  have hds : d :: rest = s.data.reverse := hr.symm
  rw [hds, List.reverse_reverse]

theorem claim_C6_witness :
    trailingBareInt "July 1" = true ∧
    Inflector.deordinalize (Inflector.ordinalize "July 1") = "July 1" :=
  ⟨by decide, claim_C6 "July 1" (by decide)⟩

/-- Claim C7 counterexample: `to_foreign_key` on the empty string does
not return the empty string — it unconditionally appends `_id`, so the
empty input yields `_id`. -/
theorem claim_C7_counterexample : Inflector.to_foreign_key "" ≠ "" := by decide

/-- Claim C7 amended: on the empty string every flag's transformation
except `to_foreign_key` returns the empty string, while `to_foreign_key`
returns `_id`; and a boundary-free lowercase word such as `test` is left
unchanged by `camel_case`, `snake_case` and `kebab_case`, while the
capitalizing multi-word transforms (`pascal_case`, `train_case`,
`sentence_case`, `title_case`) uppercase its first letter. -/
theorem claim_C7_amended :
    Inflector.to_camel_case "" = "" ∧
    Inflector.to_pascal_case "" = "" ∧
    Inflector.to_snake_case "" = "" ∧
    Inflector.to_screaming_snake_case "" = "" ∧
    Inflector.to_kebab_case "" = "" ∧
    Inflector.to_train_case "" = "" ∧
    Inflector.to_sentence_case "" = "" ∧
    Inflector.to_title_case "" = "" ∧
    Inflector.ordinalize "" = "" ∧
    Inflector.deordinalize "" = "" ∧
    Inflector.to_foreign_key "" = "_id" ∧
    Inflector.demodulize "" = "" ∧
    Inflector.deconstantize "" = "" ∧
    Inflector.to_class_case "" = "" ∧
    Inflector.to_table_case "" = "" ∧
    Inflector.to_plural "" = "" ∧
    Inflector.to_singular "" = "" ∧
    Inflector.to_uppercase "" = "" ∧
    Inflector.to_lowercase "" = "" ∧
    Inflector.to_camel_case "test" = "test" ∧
    Inflector.to_snake_case "test" = "test" ∧
    Inflector.to_kebab_case "test" = "test" ∧
    Inflector.to_pascal_case "test" = "Test" ∧
    Inflector.to_train_case "test" = "Test" ∧
    Inflector.to_sentence_case "test" = "Test" ∧
    Inflector.to_title_case "test" = "Test" := by
  decide

theorem toNat_ofNat_lt (n : Nat) (h : n < 55296) : (Char.ofNat n).toNat = n := by
  have hv : n.isValidChar := Or.inl h
  rw [Char.ofNat, dif_pos hv]
  rfl

theorem toLower_toNat_of_upper {c : Char} (h : 65 ≤ c.toNat ∧ c.toNat ≤ 90) :
    (Char.toLower c).toNat = c.toNat + 32 := by
  simp only [Char.toLower, ge_iff_le, if_pos h]
  exact toNat_ofNat_lt _ (by omega)

theorem toLower_eq_of_not_upper {c : Char} (h : ¬(65 ≤ c.toNat ∧ c.toNat ≤ 90)) :
    Char.toLower c = c := by
  simp only [Char.toLower, ge_iff_le, if_neg h]

theorem toUpper_toNat_of_lower {c : Char} (h : 97 ≤ c.toNat ∧ c.toNat ≤ 122) :
    (Char.toUpper c).toNat = c.toNat - 32 := by
  simp only [Char.toUpper, ge_iff_le, if_pos h]
  exact toNat_ofNat_lt _ (by omega)

theorem toUpper_eq_of_not_lower {c : Char} (h : ¬(97 ≤ c.toNat ∧ c.toNat ≤ 122)) :
    Char.toUpper c = c := by
  simp only [Char.toUpper, ge_iff_le, if_neg h]

theorem toLower_toLower (c : Char) : Char.toLower (Char.toLower c) = Char.toLower c := by
  by_cases h : 65 ≤ c.toNat ∧ c.toNat ≤ 90
  · have h2 := toLower_toNat_of_upper h
    exact toLower_eq_of_not_upper (by omega)
  · rw [toLower_eq_of_not_upper h, toLower_eq_of_not_upper h]

theorem toUpper_toUpper (c : Char) : Char.toUpper (Char.toUpper c) = Char.toUpper c := by
  by_cases h : 97 ≤ c.toNat ∧ c.toNat ≤ 122
  · have h2 := toUpper_toNat_of_lower h
    exact toUpper_eq_of_not_lower (by omega)
  · rw [toUpper_eq_of_not_lower h, toUpper_eq_of_not_lower h]

theorem isSep_toLower (c : Char) : Inflector.isSep (Char.toLower c) = Inflector.isSep c := by
  by_cases h : 65 ≤ c.toNat ∧ c.toNat ≤ 90
  · simp only [Inflector.isSep, toLower_toNat_of_upper h, decide_eq_decide]
    omega
  · rw [toLower_eq_of_not_upper h]

theorem isSep_toUpper (c : Char) : Inflector.isSep (Char.toUpper c) = Inflector.isSep c := by
  by_cases h : 97 ≤ c.toNat ∧ c.toNat ≤ 122
  · simp only [Inflector.isSep, toUpper_toNat_of_lower h, decide_eq_decide]
    omega
  · rw [toUpper_eq_of_not_lower h]

theorem isUpperA_toLower (c : Char) : Inflector.isUpperA (Char.toLower c) = false := by
  by_cases h : 65 ≤ c.toNat ∧ c.toNat ≤ 90
  · simp only [Inflector.isUpperA, toLower_toNat_of_upper h, decide_eq_false_iff_not]
    omega
  · rw [toLower_eq_of_not_upper h]
    simp only [Inflector.isUpperA, decide_eq_false_iff_not]
    exact h

theorem toUpper_of_isUpperA {c : Char} (h : Inflector.isUpperA c = true) :
    Char.toUpper c = c := by
  rw [Inflector.isUpperA, decide_eq_true_eq] at h
  exact toUpper_eq_of_not_lower (by omega)

theorem isUpperA_underscore : Inflector.isUpperA '_' = false := by decide

theorem splitAll_ne_nil (l : List Char) : Inflector.splitAll l ≠ [] := by
  cases l with
  | nil => simp [Inflector.splitAll]
  | cons c rest =>
    rw [Inflector.splitAll]
    split <;> simp

theorem cons_headD_tail {α : Type} (r : List (List α)) (h : r ≠ []) :
    r.headD [] :: r.tail = r := by
  cases r with
  | nil => exact absurd rfl h
  | cons w ws => rfl

theorem flatten_splitAll (l : List Char) :
    (Inflector.splitAll l).flatten = l.filter (fun c => !Inflector.isSep c) := by
  induction l with
  | nil => rfl
  | cons c rest ih =>
    rw [Inflector.splitAll]
    by_cases h : Inflector.isSep c = true
    · rw [if_pos h]
      simp only [List.flatten_cons, List.nil_append, ih, List.filter_cons]
      simp [h]
    · rw [if_neg h]
      simp only [List.flatten_cons]
      have hne := splitAll_ne_nil rest
      have h2 : (Inflector.splitAll rest).headD [] ++ (Inflector.splitAll rest).tail.flatten
          = (Inflector.splitAll rest).flatten := by
        conv_rhs => rw [← cons_headD_tail (Inflector.splitAll rest) hne]
        simp
      simp only [List.cons_append, h2, ih, List.filter_cons]
      simp [h]

theorem flatten_filter_nonempty {α : Type} (L : List (List α)) :
    (L.filter (fun w => !w.isEmpty)).flatten = L.flatten := by
  induction L with
  | nil => rfl
  | cons w ws ih =>
    cases w with
    | nil => simpa using ih
    | cons a as => simpa using ih

theorem filter_markBoundaries (l : List Char) :
    (Inflector.markBoundaries l).filter (fun c => !Inflector.isSep c)
      = l.filter (fun c => !Inflector.isSep c) := by
  induction l with
  | nil => rfl
  | cons a rest ih =>
    cases rest with
    | nil => rfl
    | cons b rest2 =>
      rw [Inflector.markBoundaries]
      by_cases h : Inflector.isLowerA a = true ∧ Inflector.isUpperA b = true
      · rw [if_pos h]
        have hu : (!Inflector.isSep '_') = false := by decide
        simp only [List.filter_cons, hu, ih]
        simp
      · rw [if_neg h]
        simp only [List.filter_cons, ih]

theorem flatten_splitWords (l : List Char) :
    (Inflector.splitWords l).flatten = l.filter (fun c => !Inflector.isSep c) := by
  rw [Inflector.splitWords, flatten_filter_nonempty, flatten_splitAll,
    filter_markBoundaries]

theorem flatten_splitWords_of_sepFree (l : List Char)
    (h : ∀ c ∈ l, Inflector.isSep c = false) :
    (Inflector.splitWords l).flatten = l := by
  rw [flatten_splitWords]
  exact List.filter_eq_self.mpr (by intro a ha; simp [h a ha])

theorem mem_splitAll_sepFree (l : List Char) :
    ∀ w ∈ Inflector.splitAll l, ∀ c ∈ w, Inflector.isSep c = false := by
  induction l with
  | nil =>
    intro w hw c hc
    simp [Inflector.splitAll] at hw
    subst hw
    simp at hc
  | cons a rest ih =>
    intro w hw c hc
    rw [Inflector.splitAll] at hw
    by_cases h : Inflector.isSep a = true
    · rw [if_pos h] at hw
      rcases List.mem_cons.mp hw with h1 | h1
      · subst h1; simp at hc
      · exact ih w h1 c hc
    · rw [if_neg h] at hw
      rcases List.mem_cons.mp hw with h1 | h1
      · subst h1
        rcases List.mem_cons.mp hc with h2 | h2
        · subst h2; simpa using h
        · cases hr : Inflector.splitAll rest with
          | nil => rw [hr] at h2; simp at h2
          | cons w0 ws0 =>
            rw [hr] at h2
            exact ih w0 (by rw [hr]; exact List.mem_cons_self _ _) c h2
      · cases hr : Inflector.splitAll rest with
        | nil => rw [hr] at h1; simp at h1
        | cons w0 ws0 =>
          rw [hr] at h1
          exact ih w (by rw [hr]; exact List.mem_cons_of_mem _ h1) c hc

theorem mem_splitWords_sepFree (l : List Char) :
    ∀ w ∈ Inflector.splitWords l, ∀ c ∈ w, Inflector.isSep c = false := by
  intro w hw
  rw [Inflector.splitWords] at hw
  exact mem_splitAll_sepFree _ w (List.mem_of_mem_filter hw)

theorem mem_splitWords_ne_nil (l : List Char) :
    ∀ w ∈ Inflector.splitWords l, w ≠ [] := by
  intro w hw
  rw [Inflector.splitWords] at hw
  have := List.of_mem_filter hw
  simpa using this

theorem splitAll_append_sepFree (w : List Char) (hw : ∀ c ∈ w, Inflector.isSep c = false) :
    ∀ l : List Char, Inflector.splitAll (w ++ l)
      = (w ++ (Inflector.splitAll l).headD []) :: (Inflector.splitAll l).tail := by
  induction w with
  | nil =>
    intro l
    simp only [List.nil_append]
    exact (cons_headD_tail _ (splitAll_ne_nil l)).symm
  | cons c w2 ih =>
    intro l
    have hc : Inflector.isSep c = false := hw c (List.mem_cons_self _ _)
    have hw2 : ∀ c ∈ w2, Inflector.isSep c = false :=
      fun d hd => hw d (List.mem_cons_of_mem _ hd)
    rw [List.cons_append, Inflector.splitAll, if_neg (by simp [hc]), ih hw2 l]
    simp

theorem splitAll_sep_cons (s : Char) (hs : Inflector.isSep s = true) (l : List Char) :
    Inflector.splitAll (s :: l) = [] :: Inflector.splitAll l := by
  rw [Inflector.splitAll, if_pos hs]

theorem joinWith_nil (sep : List Char) : Inflector.joinWith sep [] = [] := rfl

theorem joinWith_single (sep : List Char) (w : List Char) :
    Inflector.joinWith sep [w] = w := rfl

theorem joinWith_cons_cons (sep w w2 : List Char) (ws : List (List Char)) :
    Inflector.joinWith sep (w :: w2 :: ws) = w ++ sep ++ Inflector.joinWith sep (w2 :: ws) := rfl

theorem markBoundaries_of_no_upper (l : List Char)
    (h : ∀ c ∈ l, Inflector.isUpperA c = false) :
    Inflector.markBoundaries l = l := by
  induction l with
  | nil => rfl
  | cons a rest ih =>
    cases rest with
    | nil => rfl
    | cons b rest2 =>
      rw [Inflector.markBoundaries]
      have hb : Inflector.isUpperA b = false :=
        h b (List.mem_cons_of_mem _ (List.mem_cons_self _ _))
      rw [if_neg (by simp [hb])]
      rw [ih (fun c hc => h c (List.mem_cons_of_mem _ hc))]

theorem joinWith_no_upper (s : Char) (hup : Inflector.isUpperA s = false) :
    ∀ ws : List (List Char),
      (∀ w ∈ ws, ∀ c ∈ w, Inflector.isUpperA c = false) →
      ∀ c ∈ Inflector.joinWith [s] ws, Inflector.isUpperA c = false := by
  intro ws
  induction ws with
  | nil => intro _ c hc; simp [Inflector.joinWith] at hc
  | cons w ws2 ih =>
    intro h c hc
    cases ws2 with
    | nil =>
      rw [joinWith_single] at hc
      exact h w (List.mem_cons_self _ _) c hc
    | cons w2 ws3 =>
      rw [joinWith_cons_cons] at hc
      rcases List.mem_append.mp hc with h1 | h1
      · rcases List.mem_append.mp h1 with h2 | h2
        · exact h w (List.mem_cons_self _ _) c h2
        · rcases List.mem_singleton.mp h2 with rfl
          exact hup
      · exact ih (fun v hv => h v (List.mem_cons_of_mem _ hv)) c h1

theorem splitAll_of_sepFree (w : List Char)
    (hsep : ∀ c ∈ w, Inflector.isSep c = false) :
    Inflector.splitAll w = [w] := by
  have h := splitAll_append_sepFree w hsep []
  rw [List.append_nil] at h
  simpa [Inflector.splitAll] using h

theorem splitWords_joinWith (s : Char) (hs : Inflector.isSep s = true)
    (hup : Inflector.isUpperA s = false) :
    ∀ ws : List (List Char),
      (∀ w ∈ ws, w ≠ []) →
      (∀ w ∈ ws, ∀ c ∈ w, Inflector.isSep c = false) →
      (∀ w ∈ ws, ∀ c ∈ w, Inflector.isUpperA c = false) →
      Inflector.splitWords (Inflector.joinWith [s] ws) = ws := by
  intro ws
  induction ws with
  | nil => intro _ _ _; rfl
  | cons w ws2 ih =>
    intro hne hsep hupw
    have hwne : w ≠ [] := hne w (List.mem_cons_self _ _)
    have hwe : w.isEmpty = false := by
      cases w with
      | nil => exact absurd rfl hwne
      | cons a as => rfl
    have hwsep : ∀ c ∈ w, Inflector.isSep c = false := hsep w (List.mem_cons_self _ _)
    have hwup : ∀ c ∈ w, Inflector.isUpperA c = false := hupw w (List.mem_cons_self _ _)
    cases ws2 with
    | nil =>
      rw [joinWith_single, Inflector.splitWords, markBoundaries_of_no_upper w hwup,
        splitAll_of_sepFree w hwsep]
      simp [List.filter_cons, hwe]
    | cons w2 ws3 =>
      have hrestup : ∀ v ∈ w2 :: ws3, ∀ c ∈ v, Inflector.isUpperA c = false :=
        fun v hv => hupw v (List.mem_cons_of_mem _ hv)
      have hjoinup : ∀ c ∈ Inflector.joinWith [s] (w2 :: ws3), Inflector.isUpperA c = false :=
        joinWith_no_upper s hup (w2 :: ws3) hrestup
      have hnoupAll : ∀ c ∈ w ++ s :: Inflector.joinWith [s] (w2 :: ws3),
          Inflector.isUpperA c = false := by
        intro c hc
        rcases List.mem_append.mp hc with h1 | h1
        · exact hwup c h1
        · rcases List.mem_cons.mp h1 with h2 | h2
          · subst h2; exact hup
          · exact hjoinup c h2
      have hjoin : Inflector.joinWith [s] (w :: w2 :: ws3)
          = w ++ s :: Inflector.joinWith [s] (w2 :: ws3) := by
        rw [joinWith_cons_cons]
        simp
      rw [hjoin, Inflector.splitWords, markBoundaries_of_no_upper _ hnoupAll,
        splitAll_append_sepFree w hwsep, splitAll_sep_cons s hs]
      simp only [List.headD_cons, List.tail_cons, List.append_nil]
      have ihres := ih (fun v hv => hne v (List.mem_cons_of_mem _ hv))
        (fun v hv => hsep v (List.mem_cons_of_mem _ hv)) hrestup
      rw [Inflector.splitWords, markBoundaries_of_no_upper _ hjoinup] at ihres
      rw [List.filter_cons, if_pos (by simp [hwe]), ihres]

theorem lowerWord_idem (w : List Char) :
    Inflector.lowerWord (Inflector.lowerWord w) = Inflector.lowerWord w := by
  simp only [Inflector.lowerWord, List.map_map]
  exact List.map_congr_left (fun c _ => toLower_toLower c)

theorem lowerWord_ne_nil {w : List Char} (h : w ≠ []) : Inflector.lowerWord w ≠ [] := by
  cases w with
  | nil => exact absurd rfl h
  | cons c cs => simp [Inflector.lowerWord]

theorem mem_lowerWord_sepFree {w : List Char} (h : ∀ c ∈ w, Inflector.isSep c = false) :
    ∀ c ∈ Inflector.lowerWord w, Inflector.isSep c = false := by
  intro c hc
  rw [Inflector.lowerWord, List.mem_map] at hc
  obtain ⟨d, hd, rfl⟩ := hc
  rw [isSep_toLower]
  exact h d hd

theorem mem_lowerWord_no_upper (w : List Char) :
    ∀ c ∈ Inflector.lowerWord w, Inflector.isUpperA c = false := by
  intro c hc
  rw [Inflector.lowerWord, List.mem_map] at hc
  obtain ⟨d, _, rfl⟩ := hc
  exact isUpperA_toLower d

theorem snakeData_idem (l : List Char) :
    Inflector.snakeData (Inflector.snakeData l) = Inflector.snakeData l := by
  have hsplit : Inflector.splitWords (Inflector.snakeData l)
      = (Inflector.splitWords l).map Inflector.lowerWord := by
    rw [Inflector.snakeData]
    refine splitWords_joinWith '_' (by decide) (by decide) _ ?_ ?_ ?_
    · intro w hw
      rw [List.mem_map] at hw
      obtain ⟨v, hv, rfl⟩ := hw
      exact lowerWord_ne_nil (mem_splitWords_ne_nil l v hv)
    · intro w hw
      rw [List.mem_map] at hw
      obtain ⟨v, hv, rfl⟩ := hw
      exact mem_lowerWord_sepFree (mem_splitWords_sepFree l v hv)
    · intro w hw
      rw [List.mem_map] at hw
      obtain ⟨v, hv, rfl⟩ := hw
      exact mem_lowerWord_no_upper v
  conv_lhs => rw [Inflector.snakeData, hsplit]
  rw [List.map_map]
  have hmap : List.map (Inflector.lowerWord ∘ Inflector.lowerWord) (Inflector.splitWords l)
      = List.map Inflector.lowerWord (Inflector.splitWords l) :=
    List.map_congr_left (fun v _ => lowerWord_idem v)
  rw [hmap, Inflector.snakeData]

theorem sepFollowedFixed_tail {c : Char} {rest : List Char}
    (h : sepFollowedFixed (c :: rest)) : sepFollowedFixed rest := by
  cases rest with
  | nil => trivial
  | cons b r2 => exact h.2

theorem headFixedOrSep_of_sep {c : Char} {rest : List Char}
    (h : sepFollowedFixed (c :: rest)) (hc : Inflector.isSep c = true) :
    headFixedOrSep rest := by
  cases rest with
  | nil => trivial
  | cons b r2 => exact h.1 hc

theorem splitAll_heads_fixed : ∀ l : List Char, sepFollowedFixed l →
    (∀ w ∈ (Inflector.splitAll l).tail, headFixed w) ∧
    (headFixedOrSep l → ∀ w ∈ Inflector.splitAll l, headFixed w) := by
  intro l
  induction l with
  | nil =>
    intro _
    constructor
    · intro w hw
      simp [Inflector.splitAll] at hw
    · intro _ w hw
      simp [Inflector.splitAll] at hw
      subst hw
      intro c cs hcc
      exact absurd hcc (by simp)
  | cons c rest ih =>
    intro hsf
    have hsfr : sepFollowedFixed rest := sepFollowedFixed_tail hsf
    by_cases hc : Inflector.isSep c = true
    · rw [splitAll_sep_cons c hc]
      have hall : ∀ w ∈ Inflector.splitAll rest, headFixed w :=
        (ih hsfr).2 (headFixedOrSep_of_sep hsf hc)
      constructor
      · intro w hw
        exact hall w (by simpa using hw)
      · intro _ w hw
        rcases List.mem_cons.mp hw with rfl | hw2
        · intro c' cs hcc
          exact absurd hcc (by simp)
        · exact hall w hw2
    · have hsplit : Inflector.splitAll (c :: rest)
          = (c :: (Inflector.splitAll rest).headD []) :: (Inflector.splitAll rest).tail := by
        rw [Inflector.splitAll, if_neg (by simp [hc])]
      rw [hsplit]
      constructor
      · intro w hw
        exact (ih hsfr).1 w (by simpa using hw)
      · intro hhead w hw
        rcases List.mem_cons.mp hw with rfl | hw2
        · intro c' cs hcc
          injection hcc with h1 h2
          subst h1
          have hh2 : Inflector.isSep c = true ∨ Char.toUpper c = c := hhead
          rcases hh2 with hh | hh
          · exact absurd hh hc
          · exact hh
        · exact (ih hsfr).1 w hw2

theorem markBoundaries_cons (b : Char) (rest : List Char) :
    ∃ m, Inflector.markBoundaries (b :: rest) = b :: m := by
  cases rest with
  | nil => exact ⟨[], rfl⟩
  | cons c2 r3 =>
    rw [Inflector.markBoundaries]
    by_cases h : Inflector.isLowerA b = true ∧ Inflector.isUpperA c2 = true
    · rw [if_pos h]
      exact ⟨_, rfl⟩
    · rw [if_neg h]
      exact ⟨_, rfl⟩

theorem sepFollowedFixed_markBoundaries : ∀ t : List Char,
    (∀ c ∈ t, Inflector.isSep c = false) →
    sepFollowedFixed (Inflector.markBoundaries t) := by
  intro t
  induction t with
  | nil => intro _; trivial
  | cons a rest ih =>
    intro h
    have ha : Inflector.isSep a = false := h a (List.mem_cons_self _ _)
    have hrest : ∀ c ∈ rest, Inflector.isSep c = false :=
      fun c hc => h c (List.mem_cons_of_mem _ hc)
    cases rest with
    | nil => trivial
    | cons b rest2 =>
      rw [Inflector.markBoundaries]
      obtain ⟨m, hm⟩ := markBoundaries_cons b rest2
      by_cases htr : Inflector.isLowerA a = true ∧ Inflector.isUpperA b = true
      · rw [if_pos htr, hm]
        refine ⟨?_, ?_, ?_⟩
        · intro hsep
          exact absurd hsep (by simp [ha])
        · intro _
          right
          exact toUpper_of_isUpperA htr.2
        · rw [← hm]
          exact ih hrest
      · rw [if_neg htr, hm]
        constructor
        · intro hsep
          exact absurd hsep (by simp [ha])
        · rw [← hm]
          exact ih hrest

theorem headFixedOrSep_markBoundaries {t : List Char} (h : headFixedOrSep t) :
    headFixedOrSep (Inflector.markBoundaries t) := by
  cases t with
  | nil => trivial
  | cons c r =>
    obtain ⟨m, hm⟩ := markBoundaries_cons c r
    rw [hm]
    exact h

theorem mem_capWord_sepFree {v : List Char}
    (h : ∀ c ∈ v, Inflector.isSep c = false) :
    ∀ c ∈ Inflector.capWord v, Inflector.isSep c = false := by
  cases v with
  | nil => intro c hc; simp [Inflector.capWord] at hc
  | cons d ds =>
    intro c hc
    rw [Inflector.capWord] at hc
    rcases List.mem_cons.mp hc with rfl | hc2
    · rw [isSep_toUpper]
      exact h d (List.mem_cons_self _ _)
    · exact h c (List.mem_cons_of_mem _ hc2)

theorem pascalData_sepFree (l : List Char) :
    ∀ c ∈ Inflector.pascalData l, Inflector.isSep c = false := by
  intro c hc
  rw [Inflector.pascalData, List.mem_flatten] at hc
  obtain ⟨w, hw, hcw⟩ := hc
  rw [List.mem_map] at hw
  obtain ⟨v, hv, rfl⟩ := hw
  exact mem_capWord_sepFree (mem_splitWords_sepFree l v hv) c hcw

theorem pascalData_headFixedOrSep (l : List Char) :
    headFixedOrSep (Inflector.pascalData l) := by
  rw [Inflector.pascalData]
  cases hws : Inflector.splitWords l with
  | nil => trivial
  | cons v ws2 =>
    have hvne : v ≠ [] := mem_splitWords_ne_nil l v (by rw [hws]; exact List.mem_cons_self _ _)
    cases v with
    | nil => exact absurd rfl hvne
    | cons d ds =>
      rw [List.map_cons, Inflector.capWord, List.flatten_cons]
      right
      exact toUpper_toUpper d

theorem pascalData_idem (l : List Char) :
    Inflector.pascalData (Inflector.pascalData l) = Inflector.pascalData l := by
  have hsep := pascalData_sepFree l
  have hsf : sepFollowedFixed (Inflector.markBoundaries (Inflector.pascalData l)) :=
    sepFollowedFixed_markBoundaries _ hsep
  have hhead : headFixedOrSep (Inflector.markBoundaries (Inflector.pascalData l)) :=
    headFixedOrSep_markBoundaries (pascalData_headFixedOrSep l)
  have hfix : ∀ w ∈ Inflector.splitWords (Inflector.pascalData l), headFixed w := by
    intro w hw
    rw [Inflector.splitWords] at hw
    exact (splitAll_heads_fixed _ hsf).2 hhead w (List.mem_of_mem_filter hw)
  have hcap : ∀ w ∈ Inflector.splitWords (Inflector.pascalData l),
      Inflector.capWord w = w := by
    intro w hw
    cases hwc : w with
    | nil => exact absurd hwc (mem_splitWords_ne_nil _ w hw)
    | cons c cs =>
      rw [Inflector.capWord, hfix w hw c cs hwc]
  conv_lhs => rw [Inflector.pascalData]
  rw [List.map_congr_left (fun v hv => hcap v hv), List.map_id']
  exact flatten_splitWords_of_sepFree _ hsep

theorem lower_map_idem (l : List Char) :
    (l.map Char.toLower).map Char.toLower = l.map Char.toLower := by
  rw [List.map_map]
  exact List.map_congr_left (fun c _ => toLower_toLower c)

theorem upper_map_idem (l : List Char) :
    (l.map Char.toUpper).map Char.toUpper = l.map Char.toUpper := by
  rw [List.map_map]
  exact List.map_congr_left (fun c _ => toUpper_toUpper c)

/-- Claim C5: `lower_case`, `upper_case`, `snake_case` and `pascal_case`
are idempotent as single-flag transformations, for every string. -/
theorem claim_C5 : ∀ s : String,
    Inflector.to_lowercase (Inflector.to_lowercase s) = Inflector.to_lowercase s ∧
    Inflector.to_uppercase (Inflector.to_uppercase s) = Inflector.to_uppercase s ∧
    Inflector.to_snake_case (Inflector.to_snake_case s) = Inflector.to_snake_case s ∧
    Inflector.to_pascal_case (Inflector.to_pascal_case s) = Inflector.to_pascal_case s := by
  intro s
  refine ⟨?_, ?_, ?_, ?_⟩
  · rw [Inflector.to_lowercase, Inflector.to_lowercase]
    exact congrArg String.mk (lower_map_idem s.data)
  · rw [Inflector.to_uppercase, Inflector.to_uppercase]
    exact congrArg String.mk (upper_map_idem s.data)
  · rw [Inflector.to_snake_case, Inflector.to_snake_case]
    exact congrArg String.mk (snakeData_idem s.data)
  · rw [Inflector.to_pascal_case, Inflector.to_pascal_case]
    exact congrArg String.mk (pascalData_idem s.data)
